import Mathlib

/-!
Verification development for the state-space compilation and encoding engine of
eBCSgen: the transition-system container (src/TS/TransitionSystem.py) and the
rate-expression algebra (src/Core/Rate.py), shallowly embedded in Lean.

Python dictionaries are modelled as insertion-ordered association lists, Python
sets of edges as finite sets, numeric values (counts, probabilities, rates) as
rationals, and species identifiers as natural numbers.  Fallible operations
(those that may raise KeyError) return Option.
-/

namespace EBCSgen

/-- Python dict insertion: updating an existing key keeps its position and
replaces the value, a new key is appended at the end. -/
def dinsert {α β : Type} [DecidableEq α] (d : List (α × β)) (k : α) (v : β) :
    List (α × β) :=
  if (d.find? (fun p => p.1 = k)).isSome then
    d.map (fun p => if p.1 = k then (k, v) else p)
  else d ++ [(k, v)]

/-- Python dict lookup: the value of the (unique) entry with the given key. -/
def dlookup {α β : Type} [DecidableEq α] (d : List (α × β)) (k : α) : Option β :=
  (d.find? (fun p => p.1 = k)).map Prod.snd

/-- Modelled from the spec: the class State of src/TS/State.py is not among the
source files.  Per the spec a state is a fixed-length vector of counts indexed
by the species ordering plus a flag marking it as an infinite/overflow ("hell")
state; states are value objects, equal iff vectors and infinity flags are
equal.  Counts are kept as rationals because rate vectorization stores its 0/1
compatibility vectors in the same type. -/
structure State where
  sequence : List ℚ
  is_inf : Bool
deriving DecidableEq

/-- Modelled from the spec: State.reorder, used by the isomorphism-aware
equality, permutes coordinates so that new coordinate j holds old coordinate
number indices[j]; the infinity flag is part of the value and is kept. -/
def State.reorder (s : State) (indices : List ℕ) : State :=
  ⟨indices.map (fun i => s.sequence.getD i 0), s.is_inf⟩

/-- Modelled from the spec: State.is_hell reads the overflow flag. -/
def State.is_hell (s : State) : Bool := s.is_inf

/-- Modelled from the spec: the class Edge of src/TS/Edge.py is not among the
source files.  Per the spec an edge is source code, target code and a
probability/weight, ordered by (source, target), immutable.  This is the
encoded form, whose endpoints are integer codes. -/
structure Edge where
  source : ℕ
  target : ℕ
  probability : ℚ
deriving DecidableEq

/-- An edge as staged before encode: its endpoints are still State objects. -/
structure EdgeS where
  source : State
  target : State
  probability : ℚ
deriving DecidableEq

/-- A transition system in the building phase: states_encoding maps State to
its integer code, edges still reference State objects, and the two staging
sets are populated by the external explorer (modelled as lists, since the
claims about encode depend only on their members). -/
structure RawTransitionSystem where
  states_encoding : List (State × ℕ)
  edges : Finset EdgeS
  ordering : List ℕ
  processed : List State
  unprocessed : List State
deriving DecidableEq

/-- An encoded transition system: every state has a stable positive integer
code, init stores the initial state code, and edges reference codes only. -/
structure TransitionSystem where
  states_encoding : List (State × ℕ)
  edges : Finset Edge
  ordering : List ℕ
  init : ℕ
  processed : List State
  unprocessed : List State
deriving DecidableEq

/-- Iteration of the set union processed | unprocessed of TransitionSystem.encode:
each staged state once, the processed ones first. -/
def RawTransitionSystem.stagedList (ts : RawTransitionSystem) : List State :=
  ts.processed ++ ts.unprocessed.filter (fun s => ¬ s ∈ ts.processed)

/-- Modelled from the spec: Edge.encode (src/TS/Edge.py is not among the source
files) replaces both State endpoints by their codes, raising KeyError (here:
none) when an endpoint has no code. -/
def encodeEdge (enc : List (State × ℕ)) (e : EdgeS) : Option Edge :=
  match dlookup enc e.source, dlookup enc e.target with
  | some a, some b => some ⟨a, b, e.probability⟩
  | _, _ => none

/-- TransitionSystem.encode_edges: encodes every staged edge, propagating the
KeyError of any failing endpoint lookup. -/
def encodeEdges (enc : List (State × ℕ)) (es : Finset EdgeS) : Option (Finset Edge) :=
  if ∀ e ∈ es, (encodeEdge enc e).isSome then
    some (es.image (fun e => (encodeEdge enc e).getD ⟨0, 0, 0⟩))
  else none

/-- TransitionSystem.encode: assigns to each staged state not yet coded the
fresh code len(states_encoding) + 1, records the code of init (KeyError, i.e.
none, when init has none), clears processed and encodes every edge. -/
def RawTransitionSystem.encode (ts : RawTransitionSystem) (init : State) :
    Option TransitionSystem :=
  let enc := ts.stagedList.foldl
    (fun d s => if (dlookup d s).isSome then d else dinsert d s (d.length + 1))
    ts.states_encoding
  match dlookup enc init with
  | none => none
  | some c =>
    match encodeEdges enc ts.edges with
    | none => none
    | some es => some ⟨enc, es, ts.ordering, c, [], ts.unprocessed⟩

/-- TransitionSystem.create_decoding: swaps the encoding dictionary. -/
def create_decoding (enc : List (State × ℕ)) : List (ℕ × State) :=
  enc.foldl (fun d p => dinsert d p.2 p.1) []

/-- Modelled from the spec: Edge.recode (src/TS/Edge.py is not among the source
files) maps both endpoints through the old decoding and then the new encoding,
raising KeyError (here: none) when a lookup fails. -/
def Edge.recodeE (e : Edge) (old_decoding : List (ℕ × State))
    (new_encoding : List (State × ℕ)) : Option Edge :=
  match dlookup old_decoding e.source, dlookup old_decoding e.target with
  | some s, some t =>
    match dlookup new_encoding s, dlookup new_encoding t with
    | some a, some b => some ⟨a, b, e.probability⟩
    | _, _ => none
  | _, _ => none

/-- TransitionSystem.recode: rewrites every edge from this system's own codes
(via create_decoding of its encoding) to the external codes; the KeyError a
missing state raises is modelled as none. -/
def recodeEdges (enc : List (State × ℕ)) (new_encoding : List (State × ℕ))
    (es : Finset Edge) : Option (Finset Edge) :=
  let dec := create_decoding enc
  if ∀ e ∈ es, (e.recodeE dec new_encoding).isSome then
    some (es.image (fun e => (e.recodeE dec new_encoding).getD ⟨0, 0, 0⟩))
  else none

/-- create_indices of src/TS/TransitionSystem.py: when the two orderings hold
the same species set, the list whose entry for each position of ordering_1 is
the first position of the same species in ordering_2; otherwise the failure. -/
def create_indices (ordering_1 ordering_2 : List ℕ) : Option (List ℕ) :=
  if ordering_1.toFinset = ordering_2.toFinset then
    some (ordering_1.filterMap (fun a => ordering_2.findIdx? (fun b => b = a)))
  else none

/-- TransitionSystem.__eq__: isomorphism-aware comparison.  The species
orderings must have equal sets; this system's states are reordered onto the
other ordering, recoded onto the other encoding (a failed recode means not
equal), and the resulting edge sets are compared (the Python code compares the
sets of edge hashes; hashing is modelled as injective, so this is edge-set
equality). -/
def TransitionSystem.tsEq (self other : TransitionSystem) : Bool :=
  match create_indices other.ordering self.ordering with
  | none => false
  | some reordering_indices =>
    let re_encoding := self.states_encoding.foldl
      (fun d p => dinsert d (p.1.reorder reordering_indices) p.2) []
    match recodeEdges re_encoding other.states_encoding self.edges with
    | none => false
    | some es => decide (es = other.edges)

/-- TransitionSystem.change_hell: finds the first state flagged infinite in
states_encoding, removes it and maps the concrete state with every coordinate
bound + 1 (and the flag kept) to the code the removed state had. -/
def TransitionSystem.change_hell (ts : TransitionSystem) (bound : ℕ) :
    TransitionSystem :=
  match ts.states_encoding.find? (fun p => p.1.is_inf) with
  | none => ts
  | some p =>
    let hell : State := ⟨List.replicate p.1.sequence.length ((bound + 1 : ℕ) : ℚ), true⟩
    { ts with states_encoding :=
        dinsert (ts.states_encoding.filter (fun q => ¬ q.1 = p.1)) hell p.2 }

/-- has_outgoing_edges of save_to_STORM_explicit: whether any edge leaves the
given code. -/
def has_outgoing_edges (edges : Finset Edge) (code : ℕ) : Bool :=
  decide (∃ e ∈ edges, e.source = code)

/-- The edge-set mutation of save_to_STORM_explicit: walking states_encoding in
order, every code with no outgoing edge in the current edge set receives a
probability-1 self-loop. -/
def addSelfLoops (ts : TransitionSystem) : Finset Edge :=
  ts.states_encoding.foldl
    (fun es p => if has_outgoing_edges es p.2 then es else insert (⟨p.2, p.2, 1⟩ : Edge) es)
    ts.edges

/-- Rendering of a rational the way Python renders the int or float it models:
an integer prints with no fractional part. -/
def ratStr (q : ℚ) : String :=
  if q.den = 1 then toString q.num else toString q.num ++ "/" ++ toString q.den

/-- Modelled from the spec: Edge.__str__ (src/TS/Edge.py is not among the
source files) prints "source target probability". -/
def edgeStr (e : Edge) : String :=
  toString e.source ++ " " ++ toString e.target ++ " " ++ ratStr e.probability

/-- The sort key realizing the Edge ordering by (source, target): lexicographic
on source, then target, with the probability only breaking remaining ties. -/
def Edge.key (e : Edge) : Lex (ℕ × Lex (ℕ × ℚ)) :=
  toLex (e.source, toLex (e.target, e.probability))

theorem Edge.key_injective : Function.Injective Edge.key := by
  intro a b h
  cases a; cases b
  simpa [Edge.key, Prod.ext_iff] using h

instance : LinearOrder Edge := LinearOrder.lift' Edge.key Edge.key_injective

/-- Modelled from the spec: order_edges_source (called by
save_to_STORM_explicit but not defined in the source files) emits all edges
sorted by source, the sort key (source, target) of the Edge ordering. -/
def order_edges_source (es : Finset Edge) : List Edge :=
  es.sort (fun a b => a ≤ b)

/-- The transitions file written by save_to_STORM_explicit, line by line: the
literal dtmc, then one line per edge of the (self-loop completed) edge set. -/
def save_to_STORM_trans_lines (ts : TransitionSystem) : List String :=
  "dtmc" :: (order_edges_source (addSelfLoops ts)).map edgeStr

/-- The transition system as it is left after save_to_STORM_explicit returns:
the edge set has been extended by the synthetic self-loops. -/
def save_to_STORM_result (ts : TransitionSystem) : TransitionSystem :=
  { ts with edges := addSelfLoops ts }

/-- Rendering of str(state.sequence): a numpy array prints its entries in
brackets separated by spaces. -/
def seqStr (l : List ℚ) : String :=
  "[" ++ String.intercalate " " (l.map ratStr) ++ "]"

/-- The labels file written by save_to_STORM_explicit: the fixed header, then
for every state flagged hell the rendering of its sequence followed directly by
deadlock (this is what line 165 of src/TS/TransitionSystem.py writes: str of
the state's sequence, not the state's integer code). -/
def save_to_STORM_labels (ts : TransitionSystem) : String :=
  "#DECLARATION\ninit " ++ "deadlock\n#END\n0 init\n" ++
  String.join (ts.states_encoding.map
    (fun p => if p.1.is_hell then seqStr p.1.sequence ++ "deadlock" else ""))

/-- The permuted copy of an encoded transition system: the ordering permuted by
the index list p and every state's coordinates permuted consistently; codes,
edges and init unchanged. -/
def permuteTS (ts : TransitionSystem) (p : List ℕ) : TransitionSystem :=
  { states_encoding := ts.states_encoding.map (fun q => (q.1.reorder p, q.2)),
    edges := ts.edges,
    ordering := p.map (fun i => ts.ordering.getD i 0),
    init := ts.init,
    processed := ts.processed,
    unprocessed := ts.unprocessed }

/-- A well-formed encoded transition system: distinct species, injective
encoding in both directions, all states of the ordering's length, and all edge
endpoints carrying codes of the encoding. -/
def WellFormed (ts : TransitionSystem) : Prop :=
  ts.ordering.Nodup ∧
  (ts.states_encoding.map Prod.fst).Nodup ∧
  (ts.states_encoding.map Prod.snd).Nodup ∧
  (∀ q ∈ ts.states_encoding, q.1.sequence.length = ts.ordering.length) ∧
  (∀ e ∈ ts.edges,
    (∃ q ∈ ts.states_encoding, q.2 = e.source) ∧
    (∃ q ∈ ts.states_encoding, q.2 = e.target))

instance (ts : TransitionSystem) : Decidable (WellFormed ts) := by
  unfold WellFormed; infer_instance

/-! Rate algebra (src/Core/Rate.py).  A rate expression is the lark parse tree
with its three kinds of leaves (numeric literal, parameter reference, agent
reference) and binary arithmetic nodes over the operator set of the grammar
(PLUS, MINUS, STAR, DIVIDE, POW).  The agent leaf type is a parameter: an
abstract pattern before vectorization, a State-shaped compatibility vector
after. -/

/-- The binary operators of the rate grammar. -/
inductive RateOp where
  | addO
  | subO
  | mulO
  | divO
  | powO
deriving DecidableEq

/-- A rate expression tree over agent leaves of type α. -/
inductive RateExpr (α : Type) : Type where
  | num : ℚ → RateExpr α
  | paramR : String → RateExpr α
  | agentR : α → RateExpr α
  | binO : RateOp → RateExpr α → RateExpr α → RateExpr α
deriving DecidableEq

/-- Vectorizer.agent: the State-shaped 0/1 compatibility vector of a pattern
over an ordering, coordinate i being 1 iff the pattern is compatible with the
species at position i.  The compatible predicate belongs to the pattern type
(an excluded collaborator) and is passed in. -/
def vectorAgent {α : Type} (compatible : α → α → Bool) (ordering : List α)
    (pat : α) : State :=
  ⟨ordering.map (fun sp => if compatible pat sp then 1 else 0), false⟩

/-- Rate.vectorize via the Vectorizer transformer: replaces every agent leaf
with its compatibility vector and every parameter leaf defined in definitions
with its value, leaving undefined parameters untouched. -/
def vectorizeExpr {α : Type} (compatible : α → α → Bool) (ordering : List α)
    (definitions : List (String × ℚ)) : RateExpr α → RateExpr State
  | .num q => .num q
  | .paramR s =>
    match dlookup definitions s with
    | some v => .num v
    | none => .paramR s
  | .agentR c => .agentR (vectorAgent compatible ordering c)
  | .binO op a b =>
    .binO op (vectorizeExpr compatible ordering definitions a)
      (vectorizeExpr compatible ordering definitions b)

/-- The agent leaves of a rate expression, in left-to-right order. -/
def agentLeaves {α : Type} : RateExpr α → List α
  | .num _ => []
  | .paramR _ => []
  | .agentR c => [c]
  | .binO _ a b => agentLeaves a ++ agentLeaves b

/-- The parameter names referenced by a rate expression. -/
def paramsOf {α : Type} : RateExpr α → List String
  | .num _ => []
  | .paramR s => [s]
  | .agentR _ => []
  | .binO _ a b => paramsOf a ++ paramsOf b

/-- Modelled from the spec: the elementwise product of two numpy vectors
followed by sum, the count-weighted sum Evaluater.agent computes. -/
def dotProduct : List ℚ → List ℚ → ℚ
  | a :: as, b :: bs => a * b + dotProduct as bs
  | _, _ => 0

/-- Evaluater: folds every vectorized agent leaf against the concrete state by
the dot product; parameter leaves stay as free symbols. -/
def substAgents (st : State) : RateExpr State → RateExpr Empty
  | .num q => .num q
  | .paramR s => .paramR s
  | .agentR v => .num (dotProduct st.sequence v.sequence)
  | .binO op a b => .binO op (substAgents st a) (substAgents st b)

/-- The outcome of the symbolic-algebra simplifier: a finite numeric value, a
symbolic expression with free symbols, or the undefined result nan. -/
inductive SimpResult where
  | val : ℚ → SimpResult
  | symb : RateExpr Empty → SimpResult
  | nanR : SimpResult
deriving DecidableEq

/-- Modelled from the spec: one arithmetic step of the simplifier on two
finite values.  Division by zero cannot produce a finite result and yields
nan; a power with a non-integral exponent stays symbolic. -/
def applyOp : RateOp → ℚ → ℚ → SimpResult
  | .addO, a, b => .val (a + b)
  | .subO, a, b => .val (a - b)
  | .mulO, a, b => .val (a * b)
  | .divO, a, b => if b = 0 then .nanR else .val (a / b)
  | .powO, a, b =>
    if b.den = 1 then
      if a = 0 ∧ b.num < 0 then .nanR
      else .val (a ^ b.num)
    else .symb (.binO .powO (.num a) (.num b))

/-- The expression a simplifier outcome stands for, for rebuilding a symbolic
combination. -/
def SimpResult.toExprR : SimpResult → RateExpr Empty
  | .val q => .num q
  | .symb e => e
  | .nanR => .num 0

/-- Modelled from the spec: combining two simplifier outcomes under a binary
operator.  nan propagates; two finite values compute; anything else stays
symbolic. -/
def simpOp (op : RateOp) (x y : SimpResult) : SimpResult :=
  match x, y with
  | .nanR, _ => .nanR
  | _, .nanR => .nanR
  | .val a, .val b => applyOp op a b
  | x, y => .symb (.binO op x.toExprR y.toExprR)

/-- Modelled from the spec: the sympy.sympify simplification of the stringified
expression (sympy is an excluded collaborator; the spec fixes its contract:
unresolved parameter leaves become free symbols, and the result is a numeric or
symbolic value or the undefined sentinel when no finite result exists, e.g. on
division by zero). -/
def sympifyModel : RateExpr Empty → SimpResult
  | .num q => .val q
  | .paramR s => .symb (.paramR s)
  | .agentR v => v.elim
  | .binO op a b => simpOp op (sympifyModel a) (sympifyModel b)

/-- Rate.evaluate: folds the agent leaves against the state, simplifies, and
returns the sentinel none exactly when the simplified value is nan. -/
def evaluateRate (r : RateExpr State) (st : State) : Option SimpResult :=
  match sympifyModel (substAgents st r) with
  | .nanR => none
  | x => some x

/-- Whether a binary operator is defined on every pair of finite values. -/
def totalOp : RateOp → Bool
  | .addO => true
  | .subO => true
  | .mulO => true
  | .divO => false
  | .powO => false

/-- Whether a rate expression uses only the everywhere-defined operators
(no division, no power). -/
def noPartialOps {α : Type} : RateExpr α → Bool
  | .num _ => true
  | .paramR _ => true
  | .agentR _ => true
  | .binO op a b => totalOp op && noPartialOps a && noPartialOps b

/-- The plain total semantics of a parameter-free, division-free, power-free
rate expression against a state (the reference value for evaluateRate). -/
def totalArith (st : State) : RateExpr State → ℚ
  | .num q => q
  | .paramR _ => 0
  | .agentR v => dotProduct st.sequence v.sequence
  | .binO .addO a b => totalArith st a + totalArith st b
  | .binO .subO a b => totalArith st a - totalArith st b
  | .binO .mulO a b => totalArith st a * totalArith st b
  | .binO .divO _ _ => 0
  | .binO .powO _ _ => 0

/-- The free parameter names of a simplifier outcome. -/
def SimpResult.paramsOfR : SimpResult → List String
  | .val _ => []
  | .symb e => paramsOf e
  | .nanR => []

/-! Concrete systems and rates used by witnesses and counterexamples. -/

/-- A concrete two-species state. -/
def stA : State := ⟨[1, 0], false⟩

/-- A second concrete two-species state. -/
def stB : State := ⟨[0, 1], false⟩

/-- A third concrete two-species state, staged nowhere. -/
def stC : State := ⟨[1, 1], false⟩

/-- A raw transition system with one processed and one unprocessed state. -/
def rawAB : RawTransitionSystem :=
  ⟨[], {⟨stA, stB, 1⟩}, [0, 1], [stA], [stB]⟩

/-- The encoded system that rawAB.encode stA produces. -/
def tsAB : TransitionSystem :=
  ⟨[(stA, 1), (stB, 2)], {⟨1, 2, 1⟩}, [0, 1], 1, [], [stB]⟩

/-- The symbolic overflow state of the change_hell witness. -/
def hellSym : State := ⟨[0, 0], true⟩

/-- A concrete encoded system holding exactly one state flagged infinite. -/
def tsHell : TransitionSystem := ⟨[(stA, 1), (hellSym, 2)], ∅, [0, 1], 1, [], []⟩

/-- A concrete encoded system with a dead-end state and no edges. -/
def tsDead : TransitionSystem := ⟨[(stA, 1)], ∅, [0, 1], 1, [], []⟩

/-- A concrete encoded system whose only state has a self-loop already. -/
def tsLoop : TransitionSystem := ⟨[(stA, 1)], {⟨1, 1, 1⟩}, [0, 1], 1, [], []⟩

/-- A concrete encoded system whose hell state is the vector of fives with
code 2 (the shape change_hell leaves behind with bound 4). -/
def tsHell5 : TransitionSystem :=
  ⟨[(stA, 1), (⟨[5, 5], true⟩, 2)], ∅, [0, 1], 1, [], []⟩

/-- The concrete rate expression 2 * agentPattern(5) over the species pair
(3, 7) with compatibility given by the order on naturals. -/
def rx9 : RateExpr ℕ := .binO .mulO (.num 2) (.agentR 5)

/-- A concrete evaluation state over three species. -/
def st8 : State := ⟨[3, 5, 7], false⟩

/-- The concrete vectorized rate 2 * agent with compatibility vector (1,0,1). -/
def rx8 : RateExpr State := .binO .mulO (.num 2) (.agentR ⟨[1, 0, 1], false⟩)

/-- A concrete well-formed encoded system over the species pair (10, 20). -/
def tsIso : TransitionSystem :=
  ⟨[(⟨[1, 2], false⟩, 1), (⟨[3, 4], false⟩, 2)], {⟨1, 2, 1⟩}, [10, 20], 1, [], []⟩

/-- A system over a different species set. -/
def tsOther : TransitionSystem := ⟨[], ∅, [10, 30], 1, [], []⟩

/-! Helper lemmas about the dictionary model. -/

theorem dlookup_eq_none_iff {α β : Type} [DecidableEq α] (d : List (α × β)) (k : α) :
    dlookup d k = none ↔ k ∉ d.map Prod.fst := by
  unfold dlookup
  rw [Option.map_eq_none', List.find?_eq_none]
  constructor
  · intro h hk
    obtain ⟨p, hp, hfst⟩ := List.mem_map.1 hk
    exact absurd (by simp [hfst]) (h p hp)
  · intro h p hp
    simp only [decide_eq_true_eq]
    intro hk
    exact h (List.mem_map.2 ⟨p, hp, hk⟩)

theorem dinsert_of_not_mem {α β : Type} [DecidableEq α] {d : List (α × β)} {k : α}
    (v : β) (h : k ∉ d.map Prod.fst) : dinsert d k v = d ++ [(k, v)] := by
  unfold dinsert
  have hfind : d.find? (fun p => p.1 = k) = none := by
    rw [List.find?_eq_none]
    intro p hp
    simp only [decide_eq_true_eq]
    intro hk
    exact h (List.mem_map.2 ⟨p, hp, hk⟩)
  simp [hfind]

theorem keys_dinsert_mem {α β : Type} [DecidableEq α] {d : List (α × β)} {k : α}
    {v : β} {x : α} :
    x ∈ (dinsert d k v).map Prod.fst ↔ x ∈ d.map Prod.fst ∨ x = k := by
  unfold dinsert
  by_cases hc : (d.find? (fun p => p.1 = k)).isSome
  · rw [if_pos hc]
    have : (d.map (fun p => if p.1 = k then (k, v) else p)).map Prod.fst
        = d.map Prod.fst := by
      rw [List.map_map]
      refine List.map_congr_left ?_
      intro p _
      by_cases hk : p.1 = k <;> simp [hk]
    rw [this]
    rw [Option.isSome_iff_exists] at hc
    obtain ⟨p, hp⟩ := hc
    have hpk : p.1 = k := by simpa using List.find?_some hp
    have hpd : p ∈ d := List.mem_of_find?_eq_some hp
    constructor
    · exact Or.inl
    · rintro (hx | rfl)
      · exact hx
      · exact List.mem_map.2 ⟨p, hpd, hpk⟩
  · rw [if_neg hc]
    simp [or_comm]

theorem mem_of_dlookup {α β : Type} [DecidableEq α] {d : List (α × β)} {k : α} {v : β}
    (h : dlookup d k = some v) : (k, v) ∈ d := by
  unfold dlookup at h
  rw [Option.map_eq_some'] at h
  obtain ⟨p, hp, hv⟩ := h
  have hpk : p.1 = k := by simpa using List.find?_some hp
  have hpd : p ∈ d := List.mem_of_find?_eq_some hp
  have : p = (k, v) := by
    cases p
    simp only at hpk hv
    simp [hpk, hv]
  exact this ▸ hpd

theorem dlookup_of_mem {α β : Type} [DecidableEq α] :
    ∀ {d : List (α × β)} {k : α} {v : β},
      (d.map Prod.fst).Nodup → (k, v) ∈ d → dlookup d k = some v := by
  intro d
  induction d with
  | nil => intro k v _ h; cases h
  | cons p d ih =>
    intro k v hnd hm
    rw [List.map_cons, List.nodup_cons] at hnd
    rcases List.mem_cons.1 hm with rfl | hm'
    · unfold dlookup
      rw [List.find?_cons_of_pos _ (by simp)]
      rfl
    · have hk : ¬ p.1 = k := by
        intro he
        exact hnd.1 (he ▸ List.mem_map.2 ⟨(k, v), hm', rfl⟩)
      have := ih hnd.2 hm'
      unfold dlookup at this ⊢
      rw [List.find?_cons_of_neg _ (by simpa using hk)]
      exact this

theorem foldl_dinsert {γ α β : Type} [DecidableEq α] (f : γ → α) (g : γ → β) :
    ∀ (l : List γ) (acc : List (α × β)),
      (acc.map Prod.fst ++ l.map f).Nodup →
      l.foldl (fun d q => dinsert d (f q) (g q)) acc
        = acc ++ l.map (fun q => (f q, g q)) := by
  intro l
  induction l with
  | nil => intro acc _; simp
  | cons q l ih =>
    intro acc hnd
    have hnotin : f q ∉ acc.map Prod.fst := by
      intro h
      have := (List.nodup_append.1 hnd).2.2
      exact this h (by simp)
    rw [List.foldl_cons, dinsert_of_not_mem (g q) hnotin]
    have hnd' : ((acc ++ [(f q, g q)]).map Prod.fst ++ l.map f).Nodup := by
      simpa [List.append_assoc] using hnd
    rw [ih (acc ++ [(f q, g q)]) hnd']
    simp

theorem create_decoding_eq {enc : List (State × ℕ)}
    (h : (enc.map Prod.snd).Nodup) :
    create_decoding enc = enc.map (fun q => (q.2, q.1)) := by
  unfold create_decoding
  exact foldl_dinsert Prod.snd Prod.fst enc [] (by simpa using h)

/-- Encoding fold of TransitionSystem.encode: over distinct fresh states, each
state is appended with the next free code. -/
theorem encode_fold (l : List State) :
    ∀ (acc : List (State × ℕ)),
      l.Nodup → (∀ s ∈ l, s ∉ acc.map Prod.fst) →
      l.foldl (fun d s => if (dlookup d s).isSome then d else dinsert d s (d.length + 1)) acc
        = acc ++ l.zip (List.range' (acc.length + 1) l.length) := by
  induction l with
  | nil => intro acc _ _; simp
  | cons s l ih =>
    intro acc hnd hfresh
    have hs : dlookup acc s = none :=
      (dlookup_eq_none_iff acc s).2 (hfresh s (by simp))
    rw [List.foldl_cons, hs]
    simp only [Option.isSome_none, Bool.false_eq_true, if_false]
    rw [dinsert_of_not_mem (acc.length + 1) (hfresh s (by simp))]
    rw [List.nodup_cons] at hnd
    have hfresh' : ∀ t ∈ l, t ∉ (acc ++ [(s, acc.length + 1)]).map Prod.fst := by
      intro t ht
      simp only [List.map_append, List.mem_append, List.map_cons, List.map_nil,
        List.mem_singleton]
      rintro (h | h)
      · exact hfresh t (by simp [ht]) h
      · subst h
        exact hnd.1 ht
    rw [ih (acc ++ [(s, acc.length + 1)]) hnd.2 hfresh']
    simp [List.range'_succ]

theorem dlookup_foldl_encode_none (l : List State) :
    ∀ (acc : List (State × ℕ)) (k : State),
      dlookup acc k = none → k ∉ l →
      dlookup (l.foldl
        (fun d s => if (dlookup d s).isSome then d else dinsert d s (d.length + 1)) acc) k
        = none := by
  induction l with
  | nil => intro acc k h _; simpa using h
  | cons s l ih =>
    intro acc k h hk
    have hks : k ≠ s := by intro he; exact hk (he ▸ List.mem_cons_self s l)
    rw [List.foldl_cons]
    by_cases hc : (dlookup acc s).isSome
    · rw [if_pos hc]
      exact ih acc k h (fun hm => hk (List.mem_cons_of_mem s hm))
    · rw [if_neg hc]
      refine ih _ k ?_ (fun hm => hk (List.mem_cons_of_mem s hm))
      rw [dlookup_eq_none_iff]
      intro hmem
      rcases keys_dinsert_mem.1 hmem with hmem' | rfl
      · exact (dlookup_eq_none_iff acc k).1 h hmem'
      · exact hks rfl

end EBCSgen

namespace EBCSgen





/-- Claim C6 (amended): after a successful encode(init), the processed staging
set is empty but the unprocessed staging set is carried over unchanged; the
code clears only processed. -/
theorem encode_clears_only_processed (ts : RawTransitionSystem) (init : State)
    (ts' : TransitionSystem) (h : ts.encode init = some ts') :
    ts'.processed = [] ∧ ts'.unprocessed = ts.unprocessed := by
  simp only [RawTransitionSystem.encode] at h
  split at h
  · cases h
  · split at h
    · cases h
    · cases h
      exact ⟨rfl, rfl⟩

/-- Claim C6 witness for the amended statement, at the concrete system. -/
theorem encode_clears_only_processed_witness :
    rawAB.encode stA = some tsAB ∧
    tsAB.processed = [] ∧ tsAB.unprocessed = rawAB.unprocessed :=
  ⟨by decide, encode_clears_only_processed rawAB stA tsAB (by decide)⟩

/-- Claim C6 counterexample: encode does not clear unprocessed, so after
encode(init) returns on this concrete system the staging sets are not both
empty, contradicting the claim as stated. -/
theorem encode_counterexample_unprocessed :
    (rawAB.encode stA).map TransitionSystem.unprocessed = some [stB] ∧
    ([stB] : List State) ≠ [] := by
  constructor
  · decide
  · decide

/-- Claim C10: when init is neither already coded in states_encoding nor among
the staged states, encode fails with the KeyError of the lookup
states_encoding[init], modelled as the none result (init is never set). -/
theorem encode_missing_init (ts : RawTransitionSystem) (init : State)
    (h1 : dlookup ts.states_encoding init = none) (h2 : init ∉ ts.stagedList) :
    ts.encode init = none := by
  unfold RawTransitionSystem.encode
  have hnone := dlookup_foldl_encode_none ts.stagedList ts.states_encoding init h1 h2
  simp only [hnone]

/-- Claim C10 witness: a state absent from the encoding and both staging sets
makes encode fail on the concrete system. -/
theorem encode_missing_init_witness : rawAB.encode stC = none :=
  encode_missing_init rawAB stC (by decide) (by decide)

end EBCSgen

namespace EBCSgen

/-- Decoding lookup: with injective codes, the decoding maps each code back to
its state. -/
theorem decoding_lookup {enc : List (State × ℕ)} (hc : (enc.map Prod.snd).Nodup)
    {s : State} {c : ℕ} (h : (s, c) ∈ enc) :
    dlookup (create_decoding enc) c = some s := by
  rw [create_decoding_eq hc]
  refine dlookup_of_mem ?_ (List.mem_map.2 ⟨(s, c), h, rfl⟩)
  rw [List.map_map]
  exact hc

/-- Claim C2: encode(init) over an empty prior encoding with all staged states
distinct gives each staged state, in iteration order, the fresh codes 1, 2, ...;
the resulting encoding is injective both ways, decoding inverts encoding on
every staged state, and both endpoints of every encoded edge are valid keys of
the decoding map. -/
theorem encode_fresh_codes (ts : RawTransitionSystem) (init : State)
    (ts' : TransitionSystem)
    (henc : ts.states_encoding = [])
    (hstg : ts.stagedList.Nodup)
    (h : ts.encode init = some ts') :
    ts'.states_encoding = ts.stagedList.zip (List.range' 1 ts.stagedList.length) ∧
    (ts'.states_encoding.map Prod.fst).Nodup ∧
    ts'.states_encoding.map Prod.snd = List.range' 1 ts.stagedList.length ∧
    (∀ s ∈ ts.stagedList, ∃ c, dlookup ts'.states_encoding s = some c ∧
      dlookup (create_decoding ts'.states_encoding) c = some s) ∧
    (∀ e ∈ ts'.edges,
      (dlookup (create_decoding ts'.states_encoding) e.source).isSome ∧
      (dlookup (create_decoding ts'.states_encoding) e.target).isSome) := by
  have hlen : ts.stagedList.length ≤ (List.range' 1 ts.stagedList.length).length := by
    rw [List.length_range']
  have hlen' : (List.range' 1 ts.stagedList.length).length ≤ ts.stagedList.length := by
    rw [List.length_range']
  have hENC : ts.stagedList.foldl
      (fun d s => if (dlookup d s).isSome then d else dinsert d s (d.length + 1))
      ts.states_encoding
      = ts.stagedList.zip (List.range' 1 ts.stagedList.length) := by
    rw [henc]
    simpa using encode_fold ts.stagedList [] hstg (by simp)
  simp only [RawTransitionSystem.encode, hENC] at h
  have hkeys : ((ts.stagedList.zip (List.range' 1 ts.stagedList.length)).map
      Prod.fst).Nodup := by
    rw [List.map_fst_zip _ _ hlen]; exact hstg
  have hcodes : ((ts.stagedList.zip (List.range' 1 ts.stagedList.length)).map
      Prod.snd).Nodup := by
    rw [List.map_snd_zip _ _ hlen']; exact List.nodup_range' 1 ts.stagedList.length
  split at h
  · cases h
  · rename_i c hinit
    split at h
    · cases h
    · rename_i es hedges
      cases h
      refine ⟨rfl, hkeys, List.map_snd_zip _ _ hlen', ?_, ?_⟩
      · intro s hs
        have hsk : s ∈ (ts.stagedList.zip (List.range' 1 ts.stagedList.length)).map
            Prod.fst := by
          rw [List.map_fst_zip _ _ hlen]; exact hs
        rcases hl : dlookup (ts.stagedList.zip (List.range' 1 ts.stagedList.length)) s
          with _ | c'
        · exact absurd ((dlookup_eq_none_iff _ _).1 hl) (by simpa using hsk)
        · exact ⟨c', rfl, decoding_lookup hcodes (mem_of_dlookup hl)⟩
      · intro e' he'
        dsimp only at he' ⊢
        unfold encodeEdges at hedges
        split at hedges
        · rename_i hall
          have hes := Option.some.inj hedges
          rw [← hes] at he'
          rcases Finset.mem_image.1 he' with ⟨e, he, hfe⟩
          have hsome := hall e he
          unfold encodeEdge at hsome hfe
          rcases hsrc : dlookup (ts.stagedList.zip (List.range' 1 ts.stagedList.length))
            e.source with _ | a
          · rw [hsrc] at hsome; cases hsome
          · rcases htgt : dlookup
              (ts.stagedList.zip (List.range' 1 ts.stagedList.length)) e.target
              with _ | b
            · rw [hsrc, htgt] at hsome; cases hsome
            · rw [hsrc, htgt] at hfe
              have he'eq : e' = ⟨a, b, e.probability⟩ := hfe.symm
              subst he'eq
              constructor
              · rw [decoding_lookup hcodes (mem_of_dlookup hsrc)]; rfl
              · rw [decoding_lookup hcodes (mem_of_dlookup htgt)]; rfl
        · cases hedges

end EBCSgen

namespace EBCSgen

/-- Python dict iteration finding the first match equals the head of the
filtered list. -/
theorem find?_eq_head?_filter {α : Type} (f : α → Bool) :
    ∀ l : List α, l.find? f = (l.filter f).head? := by
  intro l
  induction l with
  | nil => rfl
  | cons a l ih =>
    by_cases h : f a = true
    · rw [List.find?_cons_of_pos _ h, List.filter_cons_of_pos h]
      rfl
    · rw [List.find?_cons_of_neg _ (by simpa using h),
        List.filter_cons_of_neg (by simpa using h)]
      exact ih

/-- Claim C7: change_hell(bound) on an encoded system holding exactly one state
flagged infinite removes that state from states_encoding and maps the concrete
state whose every coordinate is bound + 1 (of the same vector length, flag
kept) to the integer code the flagged state had. -/
theorem change_hell_replaces (ts : TransitionSystem) (bound : ℕ) (p : State × ℕ)
    (hnd : (ts.states_encoding.map Prod.fst).Nodup)
    (huniq : ts.states_encoding.filter (fun q => q.1.is_inf) = [p]) :
    (ts.change_hell bound).states_encoding
      = ts.states_encoding.filter (fun q => ! q.1.is_inf)
        ++ [(⟨List.replicate p.1.sequence.length ((bound + 1 : ℕ) : ℚ), true⟩, p.2)] ∧
    dlookup (ts.change_hell bound).states_encoding
      ⟨List.replicate p.1.sequence.length ((bound + 1 : ℕ) : ℚ), true⟩ = some p.2 := by
  have hfind : ts.states_encoding.find? (fun q => q.1.is_inf) = some p := by
    rw [find?_eq_head?_filter, huniq]
    rfl
  have hpfil : p ∈ ts.states_encoding.filter (fun q => q.1.is_inf) := by
    rw [huniq]
    exact List.mem_singleton.2 rfl
  have hpmem : p ∈ ts.states_encoding := (List.mem_filter.1 hpfil).1
  have hpinf : p.1.is_inf = true := by simpa using (List.mem_filter.1 hpfil).2
  have hfilter : ts.states_encoding.filter (fun q => ¬ q.1 = p.1)
      = ts.states_encoding.filter (fun q => ! q.1.is_inf) := by
    refine List.filter_congr ?_
    intro a ha
    by_cases hinf : a.1.is_inf = true
    · have hafil : a ∈ ts.states_encoding.filter (fun q => q.1.is_inf) :=
        List.mem_filter.2 ⟨ha, by simpa using hinf⟩
      rw [huniq] at hafil
      have haeq : a = p := List.mem_singleton.1 hafil
      subst haeq
      simp [hinf]
    · have hne : ¬ a.1 = p.1 := by
        intro he
        exact hinf (List.inj_on_of_nodup_map hnd ha hpmem he ▸ hpinf)
      simp [hne, hinf]
  have hhellnot : (⟨List.replicate p.1.sequence.length ((bound + 1 : ℕ) : ℚ), true⟩ : State)
      ∉ (ts.states_encoding.filter (fun q => ! q.1.is_inf)).map Prod.fst := by
    intro hmem
    rcases List.mem_map.1 hmem with ⟨q, hq, hqf⟩
    have h1 : q.1.is_inf = false := by simpa using (List.mem_filter.1 hq).2
    have h2 : q.1.is_inf = true := by rw [hqf]
    rw [h1] at h2
    cases h2
  have hmain : (ts.change_hell bound).states_encoding
      = ts.states_encoding.filter (fun q => ! q.1.is_inf)
        ++ [(⟨List.replicate p.1.sequence.length ((bound + 1 : ℕ) : ℚ), true⟩, p.2)] := by
    unfold TransitionSystem.change_hell
    rw [hfind]
    dsimp only
    rw [hfilter, dinsert_of_not_mem _ hhellnot]
  refine ⟨hmain, ?_⟩
  rw [hmain]
  refine dlookup_of_mem ?_ (by simp)
  rw [List.map_append]
  rw [List.nodup_append]
  refine ⟨((List.filter_sublist _).map Prod.fst).nodup hnd, by simp, ?_⟩
  intro x hx hx'
  rw [List.map_cons, List.map_nil] at hx'
  rcases List.mem_singleton.1 hx' with rfl
  exact hhellnot hx

end EBCSgen

namespace EBCSgen


/-- Claim C2 witness: the concrete two-state system is encoded with codes 1 and
2, injective encoding, invertible decoding and valid edge endpoints. -/
theorem encode_fresh_codes_witness :
    tsAB.states_encoding = rawAB.stagedList.zip (List.range' 1 rawAB.stagedList.length) ∧
    (tsAB.states_encoding.map Prod.fst).Nodup ∧
    tsAB.states_encoding.map Prod.snd = List.range' 1 rawAB.stagedList.length ∧
    (∀ s ∈ rawAB.stagedList, ∃ c, dlookup tsAB.states_encoding s = some c ∧
      dlookup (create_decoding tsAB.states_encoding) c = some s) ∧
    (∀ e ∈ tsAB.edges,
      (dlookup (create_decoding tsAB.states_encoding) e.source).isSome ∧
      (dlookup (create_decoding tsAB.states_encoding) e.target).isSome) :=
  encode_fresh_codes rawAB stA tsAB rfl (by decide) (by decide)



/-- Claim C7 witness: on the concrete system with bound 4, the flagged state
becomes the vector of fives and keeps code 2. -/
theorem change_hell_replaces_witness :
    (tsHell.change_hell 4).states_encoding
      = tsHell.states_encoding.filter (fun q => ! q.1.is_inf)
        ++ [(⟨List.replicate hellSym.sequence.length ((4 + 1 : ℕ) : ℚ), true⟩, 2)] ∧
    dlookup (tsHell.change_hell 4).states_encoding
      ⟨List.replicate hellSym.sequence.length ((4 + 1 : ℕ) : ℚ), true⟩ = some 2 :=
  change_hell_replaces tsHell 4 (hellSym, 2) (by decide) (by decide)

end EBCSgen

namespace EBCSgen

/-- Monotonicity of the self-loop completion fold: no edge is ever removed. -/
theorem addSelfLoops_fold_mono (l : List (State × ℕ)) :
    ∀ E : Finset Edge,
      E ⊆ l.foldl (fun es q =>
        if has_outgoing_edges es q.2 then es else insert (⟨q.2, q.2, 1⟩ : Edge) es) E := by
  induction l with
  | nil => intro E; exact fun e he => he
  | cons p l ih =>
    intro E
    rw [List.foldl_cons]
    intro e he
    refine ih _ ?_
    by_cases hc : has_outgoing_edges E p.2
    · rw [if_pos hc]; exact he
    · rw [if_neg hc]; exact Finset.mem_insert_of_mem he

/-- The self-loop completion fold gives a dead-end code its self-loop. -/
theorem addSelfLoops_fold_selfloop (l : List (State × ℕ)) :
    ∀ (E : Finset Edge) (q : State × ℕ), q ∈ l → (¬ ∃ e ∈ E, e.source = q.2) →
      (⟨q.2, q.2, 1⟩ : Edge) ∈ l.foldl (fun es r =>
        if has_outgoing_edges es r.2 then es else insert (⟨r.2, r.2, 1⟩ : Edge) es) E := by
  induction l with
  | nil => intro E q hq; cases hq
  | cons p l ih =>
    intro E q hq hno
    rw [List.foldl_cons]
    rcases List.mem_cons.1 hq with rfl | hq'
    · have hc : ¬ has_outgoing_edges E q.2 := by
        simpa [has_outgoing_edges] using hno
      rw [if_neg hc]
      exact addSelfLoops_fold_mono l _ (Finset.mem_insert_self _ _)
    · by_cases hmem : (⟨q.2, q.2, 1⟩ : Edge) ∈
          (if has_outgoing_edges E p.2 then E else insert (⟨p.2, p.2, 1⟩ : Edge) E)
      · exact addSelfLoops_fold_mono l _ hmem
      · refine ih _ q hq' ?_
        rintro ⟨e, he, hsrc⟩
        by_cases hc : has_outgoing_edges E p.2
        · rw [if_pos hc] at hmem he
          exact hno ⟨e, he, hsrc⟩
        · rw [if_neg hc] at hmem he
          rcases Finset.mem_insert.1 he with rfl | he'
          · refine hmem ?_
            have hsrc' : p.2 = q.2 := hsrc
            rw [hsrc']
            exact Finset.mem_insert_self _ _
          · exact hno ⟨e, he', hsrc⟩

/-- After the self-loop completion fold, every listed code has an outgoing
edge. -/
theorem addSelfLoops_fold_covers (l : List (State × ℕ)) :
    ∀ (E : Finset Edge) (q : State × ℕ), q ∈ l →
      ∃ e ∈ l.foldl (fun es r =>
        if has_outgoing_edges es r.2 then es else insert (⟨r.2, r.2, 1⟩ : Edge) es) E,
        e.source = q.2 := by
  induction l with
  | nil => intro E q hq; cases hq
  | cons p l ih =>
    intro E q hq
    rw [List.foldl_cons]
    rcases List.mem_cons.1 hq with rfl | hq'
    · by_cases hc : has_outgoing_edges E q.2
      · rcases (by simpa [has_outgoing_edges] using hc : ∃ e ∈ E, e.source = q.2)
          with ⟨e, he, hsrc⟩
        refine ⟨e, addSelfLoops_fold_mono l _ ?_, hsrc⟩
        rw [if_pos hc]
        exact he
      · refine ⟨⟨q.2, q.2, 1⟩, addSelfLoops_fold_mono l _ ?_, rfl⟩
        rw [if_neg hc]
        exact Finset.mem_insert_self _ _
    · exact ih _ q hq'

/-- The self-loop completion fold is the identity when every listed code
already has an outgoing edge in the initial edge set. -/
theorem addSelfLoops_fold_id (l : List (State × ℕ)) :
    ∀ E : Finset Edge, (∀ q ∈ l, ∃ e ∈ E, e.source = q.2) →
      l.foldl (fun es r =>
        if has_outgoing_edges es r.2 then es else insert (⟨r.2, r.2, 1⟩ : Edge) es) E = E := by
  induction l with
  | nil => intro E _; rfl
  | cons p l ih =>
    intro E h
    rw [List.foldl_cons]
    have hc : has_outgoing_edges E p.2 := by
      simpa [has_outgoing_edges] using h p (List.mem_cons_self p l)
    rw [if_pos hc]
    exact ih E (fun q hq => h q (List.mem_cons_of_mem p hq))

/-- Claim C4: the transitions file opens with the literal dtmc; every encoded
state whose code has no outgoing edge gets the synthetic self-loop line
"code code 1"; and every encoded state ends up with at least one outgoing
transition among the written lines. -/
theorem storm_trans_lines_spec (ts : TransitionSystem) :
    (save_to_STORM_trans_lines ts).head? = some "dtmc" ∧
    (∀ q ∈ ts.states_encoding, (¬ ∃ e ∈ ts.edges, e.source = q.2) →
      edgeStr ⟨q.2, q.2, 1⟩ ∈ save_to_STORM_trans_lines ts ∧
      edgeStr ⟨q.2, q.2, 1⟩ = toString q.2 ++ " " ++ toString q.2 ++ " " ++ "1") ∧
    (∀ q ∈ ts.states_encoding, ∃ e ∈ addSelfLoops ts, e.source = q.2 ∧
      edgeStr e ∈ save_to_STORM_trans_lines ts) := by
  refine ⟨rfl, ?_, ?_⟩
  · intro q hq hno
    have hmem : (⟨q.2, q.2, 1⟩ : Edge) ∈ addSelfLoops ts :=
      addSelfLoops_fold_selfloop ts.states_encoding ts.edges q hq hno
    constructor
    · refine List.mem_cons_of_mem _ ?_
      refine List.mem_map.2 ⟨⟨q.2, q.2, 1⟩, ?_, rfl⟩
      rw [order_edges_source, Finset.mem_sort]
      exact hmem
    · have h1 : ratStr 1 = "1" := by decide
      rw [edgeStr, h1]
  · intro q hq
    rcases addSelfLoops_fold_covers ts.states_encoding ts.edges q hq with ⟨e, he, hsrc⟩
    refine ⟨e, he, hsrc, ?_⟩
    refine List.mem_cons_of_mem _ ?_
    refine List.mem_map.2 ⟨e, ?_, rfl⟩
    rw [order_edges_source, Finset.mem_sort]
    exact he


/-- Claim C4 witness: on the concrete dead-end system the file starts with
dtmc and contains the self-loop line of code 1. -/
theorem storm_trans_lines_spec_witness :
    (save_to_STORM_trans_lines tsDead).head? = some "dtmc" ∧
    edgeStr ⟨1, 1, 1⟩ ∈ save_to_STORM_trans_lines tsDead :=
  ⟨(storm_trans_lines_spec tsDead).1,
    ((storm_trans_lines_spec tsDead).2.1 (stA, 1) (by decide) (by decide)).1⟩

/-- Claim C5 (amended): save_to_STORM_explicit leaves the system unchanged
exactly when no encoded state is a dead end; in general the call adds the
synthetic probability-1 self-loops to the edge set and changes nothing else. -/
theorem storm_result_frame (ts : TransitionSystem)
    (h : ∀ q ∈ ts.states_encoding, ∃ e ∈ ts.edges, e.source = q.2) :
    save_to_STORM_result ts = ts := by
  have : addSelfLoops ts = ts.edges :=
    addSelfLoops_fold_id ts.states_encoding ts.edges h
  rw [save_to_STORM_result, this]


/-- Claim C5 witness for the amended statement, on a system with no dead end. -/
theorem storm_result_frame_witness : save_to_STORM_result tsLoop = tsLoop :=
  storm_result_frame tsLoop (by decide)

/-- Claim C5 counterexample: on the dead-end system the export call mutates
the edge set, so the export is not read-only as claimed. -/
theorem storm_result_mutates :
    (save_to_STORM_result tsDead).edges ≠ tsDead.edges ∧
    save_to_STORM_result tsDead ≠ tsDead := by
  constructor
  · decide
  · decide

end EBCSgen

namespace EBCSgen


/-- Claim C3 evaluated at the failing input: the labels writer of
save_to_STORM_explicit appends str(state.sequence) + "deadlock" for the hell
state, so the file ends in "[5 5]deadlock" and not in the state's assigned
integer code "2deadlock" that the claim prescribes. -/
theorem storm_labels_writes_sequence :
    save_to_STORM_labels tsHell5
      = "#DECLARATION\ninit deadlock\n#END\n0 init\n" ++ "[5 5]deadlock" ∧
    save_to_STORM_labels tsHell5
      ≠ "#DECLARATION\ninit deadlock\n#END\n0 init\n" ++ "2deadlock" := by
  constructor
  · decide
  · decide

end EBCSgen

namespace EBCSgen

/-- Claim C9: Rate.vectorize replaces every agent leaf with its 0/1
compatibility vector over the ordering: the vector has length len(ordering),
every coordinate is 0 or 1, coordinate i equals 1 iff the pattern is
compatible with the species at position i, and a pattern compatible with no
species yields the all-zero vector. -/
theorem vectorize_compatibility {α : Type} [DecidableEq α]
    (compatible : α → α → Bool) (ordering : List α)
    (definitions : List (String × ℚ)) (e : RateExpr α) :
    agentLeaves (vectorizeExpr compatible ordering definitions e)
      = (agentLeaves e).map (vectorAgent compatible ordering) ∧
    (∀ pat : α,
      (vectorAgent compatible ordering pat).sequence.length = ordering.length ∧
      (∀ x ∈ (vectorAgent compatible ordering pat).sequence, x = 0 ∨ x = 1) ∧
      (∀ i (h : i < ordering.length),
        ((vectorAgent compatible ordering pat).sequence.getD i 0 = 1 ↔
          compatible pat (ordering.get ⟨i, h⟩) = true)) ∧
      ((∀ sp ∈ ordering, compatible pat sp = false) →
        vectorAgent compatible ordering pat
          = ⟨List.replicate ordering.length 0, false⟩)) := by
  constructor
  · induction e with
    | num q => rfl
    | paramR s =>
      rcases h : dlookup definitions s with _ | v <;>
        simp [vectorizeExpr, agentLeaves, h]
    | agentR c => rfl
    | binO op a b iha ihb =>
      simp [vectorizeExpr, agentLeaves, iha, ihb]
  · intro pat
    refine ⟨by simp [vectorAgent], ?_, ?_, ?_⟩
    · intro x hx
      rcases List.mem_map.1 hx with ⟨sp, _, hsp⟩
      by_cases hc : compatible pat sp = true <;> simp [hc] at hsp <;>
        [exact Or.inr hsp.symm; exact Or.inl hsp.symm]
    · intro i h
      have hlen : i < (List.map (fun sp => if compatible pat sp = true then (1 : ℚ) else 0)
          ordering).length := by simpa using h
      rw [vectorAgent]
      rw [List.getD_eq_getElem?_getD, List.getElem?_eq_getElem hlen]
      rw [Option.getD_some, List.getElem_map]
      by_cases hc : compatible pat ordering[i] = true
      · rw [if_pos hc]
        simpa [List.get_eq_getElem] using hc
      · rw [if_neg hc]
        constructor
        · intro h01
          exact absurd h01 (by norm_num)
        · intro hcc
          exact absurd (by simpa [List.get_eq_getElem] using hcc) hc
    · intro hall
      rw [vectorAgent]
      have : (fun sp => if compatible pat sp = true then (1 : ℚ) else 0) =
          (fun sp => if compatible pat sp = true then (1 : ℚ) else 0) := rfl
      congr 1
      have hmap : ordering.map (fun sp => if compatible pat sp = true then (1 : ℚ) else 0)
          = ordering.map (fun _ => (0 : ℚ)) := by
        refine List.map_congr_left ?_
        intro sp hsp
        rw [hall sp hsp]
        simp
      rw [hmap, List.map_const']


/-- Claim C9 witness: on the concrete ordering the compatibility vector of
pattern 5 is (0, 1). -/
theorem vectorize_compatibility_witness :
    agentLeaves (vectorizeExpr (fun p s : ℕ => p ≤ s) [3, 7] [] rx9)
      = (agentLeaves rx9).map (vectorAgent (fun p s : ℕ => p ≤ s) [3, 7]) ∧
    (vectorAgent (fun p s : ℕ => p ≤ s) [3, 7] 5).sequence.getD 1 0 = 1 ∧
    ¬ (vectorAgent (fun p s : ℕ => p ≤ s) [3, 7] 5).sequence.getD 0 0 = 1 :=
  ⟨(vectorize_compatibility (fun p s : ℕ => p ≤ s) [3, 7] [] rx9).1,
    (((vectorize_compatibility (fun p s : ℕ => p ≤ s) [3, 7] [] rx9).2 5).2.2.1 1
      (by decide)).mpr (by decide),
    fun h => absurd ((((vectorize_compatibility (fun p s : ℕ => p ≤ s) [3, 7] [] rx9).2
      5).2.2.1 0 (by decide)).mp h) (by decide)⟩

end EBCSgen

namespace EBCSgen

/-- Free symbols of a combined simplifier outcome come from the operands. -/
theorem paramsOfR_simpOp (op : RateOp) (x y : SimpResult) :
    (simpOp op x y).paramsOfR ⊆ x.paramsOfR ++ y.paramsOfR := by
  cases x with
  | nanR => simp [simpOp, SimpResult.paramsOfR]
  | val a =>
    cases y with
    | nanR => simp [simpOp, SimpResult.paramsOfR]
    | val b =>
      cases op with
      | addO => simp [simpOp, applyOp, SimpResult.paramsOfR]
      | subO => simp [simpOp, applyOp, SimpResult.paramsOfR]
      | mulO => simp [simpOp, applyOp, SimpResult.paramsOfR]
      | divO =>
        by_cases hb : b = 0 <;>
          simp [simpOp, applyOp, hb, SimpResult.paramsOfR]
      | powO =>
        have hnil : (applyOp .powO a b).paramsOfR = [] := by
          rw [applyOp]
          split
          · split
            · rfl
            · rfl
          · rfl
        simp [simpOp, hnil]
    | symb ey =>
      simp [simpOp, SimpResult.paramsOfR, SimpResult.toExprR, paramsOf]
  | symb ex =>
    cases y with
    | nanR => simp [simpOp, SimpResult.paramsOfR]
    | val b =>
      simp [simpOp, SimpResult.paramsOfR, SimpResult.toExprR, paramsOf]
    | symb ey =>
      simp [simpOp, SimpResult.paramsOfR, SimpResult.toExprR, paramsOf]

/-- Free symbols of the simplified expression come from the expression. -/
theorem paramsOfR_sympifyModel (e : RateExpr Empty) :
    (sympifyModel e).paramsOfR ⊆ paramsOf e := by
  induction e with
  | num q => simp [sympifyModel, SimpResult.paramsOfR, paramsOf]
  | paramR s => simp [sympifyModel, SimpResult.paramsOfR, paramsOf]
  | agentR v => cases v
  | binO op a b iha ihb =>
    refine (paramsOfR_simpOp op (sympifyModel a) (sympifyModel b)).trans ?_
    intro z hz
    rw [paramsOf]
    rcases List.mem_append.1 hz with hz' | hz'
    · exact List.mem_append.2 (Or.inl (iha hz'))
    · exact List.mem_append.2 (Or.inr (ihb hz'))

/-- Substituting the agent leaves keeps the parameter references. -/
theorem paramsOf_substAgents (st : State) (r : RateExpr State) :
    paramsOf (substAgents st r) = paramsOf r := by
  induction r with
  | num q => rfl
  | paramR s => rfl
  | agentR v => rfl
  | binO op a b iha ihb => simp [substAgents, paramsOf, iha, ihb]

/-- Parameter-free, division-free, power-free expressions simplify to their
plain arithmetic value. -/
theorem sympifyModel_total (st : State) (r : RateExpr State)
    (hp : paramsOf r = []) (ht : noPartialOps r = true) :
    sympifyModel (substAgents st r) = .val (totalArith st r) := by
  induction r with
  | num q => rfl
  | paramR s => cases hp
  | agentR v => rfl
  | binO op a b iha ihb =>
    rw [paramsOf, List.append_eq_nil] at hp
    rw [noPartialOps] at ht
    cases op with
    | divO => simp [totalOp] at ht
    | powO => simp [totalOp] at ht
    | addO =>
      simp only [totalOp, Bool.true_and, Bool.and_eq_true] at ht
      rw [substAgents, sympifyModel, iha hp.1 ht.1, ihb hp.2 ht.2]
      rfl
    | subO =>
      simp only [totalOp, Bool.true_and, Bool.and_eq_true] at ht
      rw [substAgents, sympifyModel, iha hp.1 ht.1, ihb hp.2 ht.2]
      rfl
    | mulO =>
      simp only [totalOp, Bool.true_and, Bool.and_eq_true] at ht
      rw [substAgents, sympifyModel, iha hp.1 ht.1, ihb hp.2 ht.2]
      rfl

/-- Claim C8: Rate.evaluate is total (modelled as a total function into
Option): it returns the sentinel none exactly when the simplified expression
is the non-finite nan (for example after a division by zero); a returned
symbolic value carries only unresolved parameter names of the rate as free
symbols; and on a parameter-free rate built from the everywhere-defined
operators it returns the numeric value of the expression. -/
theorem evaluate_sentinel (r : RateExpr State) (st : State) :
    (evaluateRate r st = none ↔ sympifyModel (substAgents st r) = .nanR) ∧
    (∀ ex : RateExpr Empty, evaluateRate r st = some (.symb ex) →
      paramsOf ex ⊆ paramsOf r) ∧
    (paramsOf r = [] → noPartialOps r = true →
      evaluateRate r st = some (.val (totalArith st r))) := by
  refine ⟨?_, ?_, ?_⟩
  · unfold evaluateRate
    rcases h : sympifyModel (substAgents st r) with q | ex | _
    · constructor
      · intro hh; cases hh
      · intro hh; cases hh
    · constructor
      · intro hh; cases hh
      · intro hh; cases hh
    · simp
  · intro ex hev
    unfold evaluateRate at hev
    rcases h : sympifyModel (substAgents st r) with q | ex' | _ <;> rw [h] at hev
    · cases hev
    · have hev' : SimpResult.symb ex' = SimpResult.symb ex := Option.some.inj hev
      cases SimpResult.symb.inj hev'
      have h1 : (sympifyModel (substAgents st r)).paramsOfR ⊆
          paramsOf (substAgents st r) := paramsOfR_sympifyModel _
      rw [h] at h1
      rw [paramsOf_substAgents] at h1
      exact h1
    · cases hev
  · intro hp ht
    unfold evaluateRate
    rw [sympifyModel_total st r hp ht]

end EBCSgen

namespace EBCSgen



/-- Claim C8 witness: a division by zero returns the sentinel, and the concrete
product rate evaluates to its plain value 2 * (3 + 7) = 20. -/
theorem evaluate_sentinel_witness :
    evaluateRate (.binO .divO (.num 1) (.num 0)) st8 = none ∧
    evaluateRate rx8 st8 = some (.val (totalArith st8 rx8)) ∧
    totalArith st8 rx8 = 20 :=
  ⟨(evaluate_sentinel (.binO .divO (.num 1) (.num 0)) st8).1.mpr (by decide),
    (evaluate_sentinel rx8 st8).2.2 rfl rfl,
    by norm_num [totalArith, dotProduct, st8, rx8]⟩

end EBCSgen

namespace EBCSgen

/-- Reading a list back at the positions 0, ..., length-1 reproduces it. -/
theorem map_getD_range {α : Type} (l : List α) (d : α) :
    (List.range l.length).map (fun i => l.getD i d) = l := by
  refine List.ext_getElem (by simp) ?_
  intro i h1 h2
  rw [List.getElem_map, List.getElem_range]
  exact List.getD_eq_getElem l d h2

/-- filterMap over a list of successes is a map. -/
theorem filterMap_eq_map_getD {α β : Type} (f : α → Option β) (d : β) :
    ∀ l : List α, (∀ a ∈ l, (f a).isSome) →
      l.filterMap f = l.map (fun a => (f a).getD d) := by
  intro l
  induction l with
  | nil => intro _; rfl
  | cons a l ih =>
    intro h
    rw [List.filterMap_cons]
    rcases hfa : f a with _ | b
    · exact absurd (hfa ▸ h a (by simp)) (by simp)
    · rw [List.map_cons, ih (fun x hx => h x (by simp [hx]))]
      simp [hfa]

/-- Folds agree when the step functions agree on the list members. -/
theorem foldl_congr_mem {α β : Type} (f g : β → α → β) :
    ∀ (l : List α) (acc : β), (∀ (b : β) (a : α), a ∈ l → f b a = g b a) →
      l.foldl f acc = l.foldl g acc := by
  intro l
  induction l with
  | nil => intro acc _; rfl
  | cons a l ih =>
    intro acc h
    rw [List.foldl_cons, List.foldl_cons, h acc a (by simp)]
    exact ih _ (fun b x hx => h b x (by simp [hx]))

/-- The index list create_indices builds for a permuted ordering: it succeeds
and entry j names the position of species j in the permutation. -/
theorem create_indices_perm (o : List ℕ) (p : List ℕ)
    (hnd : o.Nodup) (hp : p.Perm (List.range o.length)) :
    ∃ idx : List ℕ,
      create_indices o (p.map (fun i => o.getD i 0)) = some idx ∧
      idx.length = o.length ∧
      (∀ j (hj2 : j < idx.length),
        idx[j] < p.length ∧ p.getD idx[j] 0 = j) := by
  have hperm' : (p.map (fun i => o.getD i 0)).Perm o := by
    have := hp.map (fun i => o.getD i 0)
    rwa [map_getD_range] at this
  have hset : o.toFinset = (p.map (fun i => o.getD i 0)).toFinset :=
    (List.toFinset_eq_of_perm _ _ hperm').symm
  have hsome : ∀ a ∈ o,
      ((p.map (fun i => o.getD i 0)).findIdx? (fun b => b = a)).isSome := by
    intro a ha
    rw [List.findIdx?_isSome, List.any_eq_true]
    exact ⟨a, hperm'.mem_iff.2 ha, by simp⟩
  refine ⟨o.map (fun a =>
      (((p.map (fun i => o.getD i 0)).findIdx? (fun b => b = a)).getD 0)), ?_, by simp, ?_⟩
  · rw [create_indices, if_pos hset]
    rw [filterMap_eq_map_getD _ 0 o hsome]
  · intro j hj2
    have hj : j < o.length := by simpa using hj2
    rw [List.getElem_map]
    rcases hfi : (p.map (fun i => o.getD i 0)).findIdx? (fun b => b = o[j])
      with _ | i
    · exact absurd (hfi ▸ hsome o[j] (List.getElem_mem hj)) (by simp)
    · rcases List.findIdx?_eq_some_iff_getElem.1 hfi with ⟨hi, hval, _⟩
      have hi' : i < p.length := by simpa using hi
      have hpi : p[i] < o.length := by
        have : p[i] ∈ p := List.getElem_mem hi'
        exact List.mem_range.1 (hp.mem_iff.1 this)
      have hval' : o[p[i]] = o[j] := by
        rw [List.getElem_map] at hval
        have : o.getD p[i] 0 = o[j] := by simpa using hval
        rwa [List.getD_eq_getElem o 0 hpi] at this
      have hij : p[i] = j := (List.Nodup.getElem_inj_iff hnd).1 hval'
      rw [Option.getD_some]
      exact ⟨hi', by rw [List.getD_eq_getElem p 0 hi', hij]⟩

end EBCSgen

namespace EBCSgen

/-- Reordering by a permutation and then by the matching create_indices list
restores the state. -/
theorem reorder_reorder_inv (o p idx : List ℕ) (s : State)
    (hlen : s.sequence.length = o.length)
    (hidxlen : idx.length = o.length)
    (hidx : ∀ j (hj2 : j < idx.length),
      idx[j] < p.length ∧ p.getD idx[j] 0 = j) :
    (s.reorder p).reorder idx = s := by
  cases s with
  | mk seq inf =>
    unfold State.reorder
    simp only
    congr 1
    refine List.ext_getElem (by simp [hidxlen, hlen]) ?_
    intro j hj1 hj2
    have hjidx : j < idx.length := by simpa using hj1
    rcases hidx j hjidx with ⟨hb, hv⟩
    rw [List.getElem_map]
    have hb' : idx[j] < (p.map (fun i => seq.getD i 0)).length := by simpa using hb
    rw [List.getD_eq_getElem _ 0 hb', List.getElem_map]
    have hpj : p[idx[j]] = j := by
      rw [List.getD_eq_getElem p 0 hb] at hv
      exact hv
    rw [hpj]
    exact List.getD_eq_getElem seq 0 hj2

/-- Rebuilding a dictionary by inserting keys rewritten by a function that is
the identity on its entries reproduces the dictionary. -/
theorem foldl_dinsert_id (l : List (State × ℕ)) (f : State → State)
    (hkeys : (l.map Prod.fst).Nodup)
    (hf : ∀ q ∈ l, f q.1 = q.1) :
    l.foldl (fun d q => dinsert d (f q.1) q.2) [] = l := by
  rw [foldl_congr_mem _ (fun d (q : State × ℕ) => dinsert d q.1 q.2) l []
    (fun b q hq => by rw [hf q hq])]
  rw [foldl_dinsert Prod.fst Prod.snd l [] (by simpa using hkeys)]
  have hid : (fun q : State × ℕ => (q.1, q.2)) = id := funext (fun q => Prod.mk.eta)
  rw [hid, List.map_id]
  rfl

/-- Recoding a valid edge set onto the encoding it already uses is the
identity. -/
theorem recodeEdges_id (enc : List (State × ℕ)) (E : Finset Edge)
    (hkeys : (enc.map Prod.fst).Nodup) (hcodes : (enc.map Prod.snd).Nodup)
    (hE : ∀ e ∈ E, (∃ q ∈ enc, q.2 = e.source) ∧ (∃ q ∈ enc, q.2 = e.target)) :
    recodeEdges enc enc E = some E := by
  have hrec : ∀ e ∈ E, Edge.recodeE e (create_decoding enc) enc = some e := by
    intro e he
    rcases (hE e he).1 with ⟨q1, hq1, hsrc⟩
    rcases (hE e he).2 with ⟨q2, hq2, htgt⟩
    have hd1 : dlookup (create_decoding enc) e.source = some q1.1 := by
      rw [← hsrc]
      exact decoding_lookup hcodes (by rw [Prod.mk.eta]; exact hq1)
    have hd2 : dlookup (create_decoding enc) e.target = some q2.1 := by
      rw [← htgt]
      exact decoding_lookup hcodes (by rw [Prod.mk.eta]; exact hq2)
    have he1 : dlookup enc q1.1 = some e.source := by
      rw [← hsrc]
      exact dlookup_of_mem hkeys (by rw [Prod.mk.eta]; exact hq1)
    have he2 : dlookup enc q2.1 = some e.target := by
      rw [← htgt]
      exact dlookup_of_mem hkeys (by rw [Prod.mk.eta]; exact hq2)
    rw [Edge.recodeE, hd1, hd2]
    simp only
    rw [he1, he2]
  have himg : E.image
      (fun e => (Edge.recodeE e (create_decoding enc) enc).getD ⟨0, 0, 0⟩) = E := by
    ext x
    rw [Finset.mem_image]
    constructor
    · rintro ⟨e, he, hfe⟩
      rw [hrec e he, Option.getD_some] at hfe
      rwa [← hfe]
    · intro hx
      exact ⟨x, hx, by simp [hrec x hx]⟩
  unfold recodeEdges
  rw [if_pos (fun e he => by rw [hrec e he]; rfl)]
  rw [himg]

end EBCSgen

namespace EBCSgen

/-- Master run of the isomorphism comparison: comparing any system whose
ordering and state coordinates are permuted copies of ts (with any edge set E
whose endpoints are codes of ts) against ts reduces to comparing E with the
edge set of ts. -/
theorem tsEq_run (ts : TransitionSystem) (p : List ℕ) (E : Finset Edge)
    (i0 : ℕ) (pr un : List State)
    (hWF : WellFormed ts) (hp : p.Perm (List.range ts.ordering.length))
    (hE : ∀ e ∈ E, (∃ q ∈ ts.states_encoding, q.2 = e.source) ∧
      (∃ q ∈ ts.states_encoding, q.2 = e.target)) :
    TransitionSystem.tsEq
      ⟨ts.states_encoding.map (fun q => (q.1.reorder p, q.2)), E,
        p.map (fun i => ts.ordering.getD i 0), i0, pr, un⟩ ts
      = decide (E = ts.edges) := by
  obtain ⟨hord, hkeys, hcodes, hlen, _⟩ := hWF
  obtain ⟨idx, hci, hidxlen, hidx⟩ := create_indices_perm ts.ordering p hord hp
  have hfold : (ts.states_encoding.map (fun q => (q.1.reorder p, q.2))).foldl
      (fun d q => dinsert d (q.1.reorder idx) q.2) ([] : List (State × ℕ))
      = ts.states_encoding := by
    rw [List.foldl_map]
    rw [foldl_congr_mem _ (fun d (q : State × ℕ) => dinsert d q.1 q.2) _ []
      (fun b q hq => by
        rw [reorder_reorder_inv ts.ordering p idx q.1 (hlen q hq) hidxlen hidx])]
    rw [foldl_dinsert Prod.fst Prod.snd ts.states_encoding [] (by simpa using hkeys)]
    have hid : (fun q : State × ℕ => (q.1, q.2)) = id := funext (fun q => Prod.mk.eta)
    rw [hid, List.map_id]
    rfl
  have hrun := recodeEdges_id ts.states_encoding E hkeys hcodes hE
  unfold TransitionSystem.tsEq
  dsimp only
  rw [hci]
  dsimp only
  rw [hfold, hrun]

end EBCSgen

namespace EBCSgen

/-- Reordering by the identity index list is the identity on states of the
right length. -/
theorem reorder_range (s : State) (n : ℕ) (h : s.sequence.length = n) :
    s.reorder (List.range n) = s := by
  cases s with
  | mk seq inf =>
    unfold State.reorder
    simp only at h
    subst h
    simp only
    congr 1
    exact map_getD_range seq 0

/-- Claim C1: the isomorphism-aware equality accepts every consistent
permutation of the species ordering, rejects a perturbation of one edge
probability, and rejects orderings with different species sets.  Part one:
for every well-formed encoded system and every permutation of its ordering,
the permuted system (states' coordinates permuted consistently) compares equal
to the original.  Part two: the system identical except that edge e's
probability is changed to a different value q compares not-equal.  Part three:
two systems whose orderings hold different species sets compare not-equal. -/
theorem tsEq_isomorphism :
    (∀ (ts : TransitionSystem) (p : List ℕ), WellFormed ts →
      p.Perm (List.range ts.ordering.length) →
      TransitionSystem.tsEq (permuteTS ts p) ts = true) ∧
    (∀ (ts : TransitionSystem) (e : Edge) (q : ℚ), WellFormed ts →
      e ∈ ts.edges → q ≠ e.probability →
      TransitionSystem.tsEq
        { ts with edges := insert ⟨e.source, e.target, q⟩ (ts.edges.erase e) } ts
        = false) ∧
    (∀ ts other : TransitionSystem,
      ts.ordering.toFinset ≠ other.ordering.toFinset →
      TransitionSystem.tsEq ts other = false) := by
  refine ⟨?_, ?_, ?_⟩
  · intro ts p hWF hp
    have h := tsEq_run ts p ts.edges ts.init ts.processed ts.unprocessed hWF hp
      hWF.2.2.2.2
    unfold permuteTS
    rw [h]
    exact decide_eq_true rfl
  · intro ts e q hWF he hq
    have hEvalid : ∀ e' ∈ insert (⟨e.source, e.target, q⟩ : Edge) (ts.edges.erase e),
        (∃ r ∈ ts.states_encoding, r.2 = e'.source) ∧
        (∃ r ∈ ts.states_encoding, r.2 = e'.target) := by
      intro e' he'
      rcases Finset.mem_insert.1 he' with rfl | he''
      · exact hWF.2.2.2.2 e he
      · exact hWF.2.2.2.2 e' (Finset.mem_of_mem_erase he'')
    have hmaster := tsEq_run ts (List.range ts.ordering.length)
      (insert (⟨e.source, e.target, q⟩ : Edge) (ts.edges.erase e))
      ts.init ts.processed ts.unprocessed hWF (List.Perm.refl _) hEvalid
    have h1 : (List.range ts.ordering.length).map (fun i => ts.ordering.getD i 0)
        = ts.ordering := map_getD_range ts.ordering 0
    have h2 : ts.states_encoding.map
        (fun r : State × ℕ => (r.1.reorder (List.range ts.ordering.length), r.2))
        = ts.states_encoding := by
      have hcg : ts.states_encoding.map
          (fun r : State × ℕ => (r.1.reorder (List.range ts.ordering.length), r.2))
          = ts.states_encoding.map id := by
        refine List.map_congr_left ?_
        intro r hr
        rw [reorder_range r.1 ts.ordering.length (hWF.2.2.2.1 r hr)]
        exact Prod.mk.eta
      rw [hcg, List.map_id]
    rw [h1, h2] at hmaster
    have hne : insert (⟨e.source, e.target, q⟩ : Edge) (ts.edges.erase e)
        ≠ ts.edges := by
      intro heq
      have hmem : e ∈ insert (⟨e.source, e.target, q⟩ : Edge) (ts.edges.erase e) :=
        heq.symm ▸ he
      rcases Finset.mem_insert.1 hmem with habs | habs
      · have : e.probability = q := by rw [habs]
        exact hq this.symm
      · exact Finset.not_mem_erase e ts.edges habs
    exact hmaster.trans (decide_eq_false hne)
  · intro ts other hne
    unfold TransitionSystem.tsEq
    dsimp only
    rw [create_indices, if_neg (fun h => hne h.symm)]

end EBCSgen

namespace EBCSgen



/-- Claim C1 witness: swapping the two species leaves the concrete system
equal to itself, perturbing the edge probability 1 to 2 makes it not-equal,
and a different species set makes it not-equal. -/
theorem tsEq_isomorphism_witness :
    TransitionSystem.tsEq (permuteTS tsIso [1, 0]) tsIso = true ∧
    TransitionSystem.tsEq
      { tsIso with edges := insert ⟨1, 2, 2⟩ (tsIso.edges.erase ⟨1, 2, 1⟩) } tsIso
      = false ∧
    TransitionSystem.tsEq tsIso tsOther = false :=
  ⟨tsEq_isomorphism.1 tsIso [1, 0] (by decide) (by decide),
    tsEq_isomorphism.2.1 tsIso ⟨1, 2, 1⟩ 2 (by decide) (by decide) (by decide),
    tsEq_isomorphism.2.2 tsIso tsOther (by decide)⟩

end EBCSgen
